import Mathlib

/-!
Shallow embedding of `internal/remote/storage/storage_memory/queue.go`:
a file-backed message queue (queue CRUD + message enqueue / poll / ack).

Modelling conventions:
* The on-disk store is an association list: one entry per queue directory
  (keyed by queue id), holding the queue's metadata file and one entry per
  message file (keyed by the file's base name without the `.json` suffix).
  A message file entry of `none` is a file whose contents cannot be read or
  parsed (`os.ReadFile` / `json.Unmarshal` failure in the source).
* `time.Time` values are Unix seconds as `Int`; the Go zero value
  `time.Time{}` is `0`, and all instants of interest are positive, so
  `Equal(time.Time{})` is `= 0` and `Before`/`After` are `<`/`>`.
* Go string comparison (`<`, `>`) is byte-wise lexicographic; it is embedded
  as `strLt` on the character lists.
* `sort.Slice` is an unspecified sort w.r.t. a strict comparator; it is
  embedded as an insertion sort over the non-strict complement of the
  comparator, one admissible outcome of the unstable Go sort.
* Fallible operations return `Except StoreError · × State`: the final state
  is returned even on error, because the poll scan deletes files as it walks.
-/

namespace StorageMemory

/-- Queue descriptor (`models.Queue`), one metadata file per queue directory:
`{id, name, description, runId, actorId, createdAt}` with `createdAt` an
RFC3339Nano-formatted string (sorted by plain string comparison). -/
structure Queue where
  id : String
  name : String
  description : String
  runId : String
  actorId : String
  createdAt : String
  deriving DecidableEq

/-- Response shape of a polled message (`models.Msg` as rebuilt at the end of
`GetMsg`): all record fields except `reenterTime` and `updateTime`. -/
structure Msg where
  id : String
  queueId : String
  name : String
  payload : String
  timeout : Int
  deadline : Int
  retry : Int
  retried : Int
  successAt : Int
  failedAt : Int
  desc : String
  deriving DecidableEq

/-- Stored message record (`models.MsgLocal`): the response fields plus the
lease bookkeeping (`reenterTime`, `updateTime`). -/
structure MsgLocal where
  id : String
  queueId : String
  name : String
  payload : String
  deadline : Int
  retry : Int
  timeout : Int
  retried : Int
  successAt : Int
  failedAt : Int
  desc : String
  reenterTime : Int
  updateTime : Int
  deriving DecidableEq

/-- Projection used at `GetMsg`'s response construction (queue.go:262-274). -/
def MsgLocal.toMsg (m : MsgLocal) : Msg :=
  { id := m.id, queueId := m.queueId, name := m.name, payload := m.payload,
    timeout := m.timeout, deadline := m.deadline, retry := m.retry,
    retried := m.retried, successAt := m.successAt, failedAt := m.failedAt,
    desc := m.desc }

/-- One queue directory: the metadata file (`none` = unreadable/unparsable)
and the message files in directory-listing order. -/
structure QueueDir where
  meta : Option Queue
  msgs : List (String × Option MsgLocal)
  deriving DecidableEq

/-- The storage root: one directory per queue, keyed by queue id. -/
abbrev State := List (String × QueueDir)

/-- The errors the embedded operations distinguish: the `ErrResourceNotFound`
sentinel, the duplicate-name error, the deadline lead-time error, the walk
error on a missing queue path, read/unmarshal failures, and the late-ack
error ("msg is timeout, you must ack within the timeout period"). -/
inductive StoreError where
  | resourceNotFound
  | nameExists (n : String)
  | deadlineTooSoon
  | pathError (p : String)
  | readFailed (p : String)
  | ackTimeout
  deriving DecidableEq

deriving instance DecidableEq for Except

/-- Byte-wise lexicographic strict comparison, Go's `<` on `string`. -/
def strLt : List Char → List Char → Bool
  | [], [] => false
  | [], _ :: _ => true
  | _ :: _, [] => false
  | a :: as, b :: bs => if a < b then true else if b < a then false else strLt as bs

/-- Go's `a < b` on `String`. -/
def strLtS (a b : String) : Bool := strLt a.data b.data

/-- Insert into a list sorted by the reflexive relation `le`. -/
def insertLe {α : Type} (le : α → α → Bool) (a : α) : List α → List α
  | [] => [a]
  | b :: bs => if le a b then a :: b :: bs else b :: insertLe le a bs

/-- Insertion sort by `le`: the executable model of `sort.Slice` with the
strict comparator `fun a b => !(le b a)` (one admissible outcome of the
unstable Go sort). -/
def sortLe {α : Type} (le : α → α → Bool) : List α → List α
  | [] => []
  | a :: as => insertLe le a (sortLe le as)

/-- First directory entry for a queue id (`filepath.Join(storageDir, queueDir, id)`). -/
def lookupQ : State → String → Option QueueDir
  | [], _ => none
  | (k, d) :: rest, q => if k = q then some d else lookupQ rest q

/-- Overwrite the directory stored under a queue id. -/
def setQ (s : State) (q : String) (d : QueueDir) : State :=
  s.map fun p => if p.1 = q then (q, d) else p

/-- First message file with the given base name. -/
def findFile : List (String × Option MsgLocal) → String → Option (Option MsgLocal)
  | [], _ => none
  | (k, v) :: rest, i => if k = i then some v else findFile rest i

/-- `os.WriteFile`: truncate the existing file, or create a new one. -/
def writeMsgFile (ms : List (String × Option MsgLocal)) (i : String) (m : MsgLocal) :
    List (String × Option MsgLocal) :=
  if ms.any (fun p => p.1 = i) then
    ms.map fun p => if p.1 = i then (i, some m) else p
  else
    ms ++ [(i, some m)]

/-- `os.Remove` of one message file. -/
def removeMsgFile (ms : List (String × Option MsgLocal)) (i : String) :
    List (String × Option MsgLocal) :=
  ms.filter fun p => p.1 ≠ i

/-- Modelled from the spec: the helper `isNameExists` lives outside this file;
spec §4.2 says creation "fails with `AlreadyExists` if any existing descriptor
has the same `name` (case-sensitive exact match, scanned linearly over all
queue directories)". -/
def isNameExists (s : State) (n : String) : Bool :=
  s.any fun p => match p.2.meta with
    | some q => q.name == n
    | none => false

/-- `CreateQueue` (queue.go:17-47): reject a duplicate name, otherwise create
the directory keyed by the fresh id and write the initial descriptor. The
fresh uuid and the formatted creation instant are passed in as parameters. -/
def CreateQueue (s : State) (newId createdAt name description runId actorId : String) :
    Except StoreError String × State :=
  if isNameExists s name then (.error (.nameExists name), s)
  else
    let q : Queue := { id := newId, description := description, name := name,
                       runId := runId, actorId := actorId, createdAt := createdAt }
    (.ok newId, (newId, { meta := some q, msgs := [] }) :: s)

/-- `GetQueue` (queue.go:49-69): `ErrResourceNotFound` if the directory is
missing, a read error if the metadata file cannot be parsed, else the
descriptor. Reads only; no state is returned. -/
def GetQueue (s : State) (qid : String) : Except StoreError Queue :=
  match lookupQ s qid with
  | none => .error .resourceNotFound
  | some d =>
    match d.meta with
    | none => .error (.readFailed qid)
    | some q => .ok q

/-- Go slice expression `l[lo:hi]`: out of range (a panic, modelled as `none`)
unless `0 ≤ lo ≤ hi ≤ length`. (In `GetQueues` the upper bound is always
clamped to the length, so the extra capacity Go would tolerate is moot.) -/
def goSlice {α : Type} (l : List α) (lo hi : Int) : Option (List α) :=
  if 0 ≤ lo ∧ lo ≤ hi ∧ hi ≤ (l.length : Int) then
    some ((l.take hi.toNat).drop lo.toNat)
  else none

/-- Modelled from the spec: the helper `totalPage` lives outside this file;
spec §4.2 says the listing returns "the computed total page count =
ceil(total / pageSize)". -/
def totalPage (total pageSize : Int) : Int :=
  (total + pageSize - 1) / pageSize

/-- Listing response (`models.ListQueuesResponse`). -/
structure ListQueuesResponse where
  items : List Queue
  total : Int
  page : Int
  pageSize : Int
  totalPage : Int
  deriving DecidableEq

/-- The comparator handed to `sort.Slice` in `GetQueues` (queue.go:103-108),
as the non-strict `le`: ascending by `createdAt`, descending when `desc`. -/
def queueLe (desc : Bool) (a b : Queue) : Bool :=
  if desc then !(strLtS a.createdAt b.createdAt) else !(strLtS b.createdAt a.createdAt)

/-- `GetQueues` (queue.go:71-131): collect every readable descriptor (skipping
unreadable ones), sort by creation timestamp, clamp `start`/`end` to the
total, slice to the 1-indexed page. `none` is the Go panic of the slice
expression (a negative `start` is never clamped). -/
def GetQueues (s : State) (page pageSize : Int) (desc : Bool) :
    Option ListQueuesResponse :=
  let allNamespaces := s.filterMap fun p => p.2.meta
  let sorted := sortLe (queueLe desc) allNamespaces
  let total : Int := allNamespaces.length
  let start0 := (page - 1) * pageSize
  let start := if start0 > total then total else start0
  let stop0 := start + pageSize
  let stop := if stop0 > total then total else stop0
  match goSlice sorted start stop with
  | none => none
  | some pagedItems =>
    some { items := pagedItems, total := total, page := page, pageSize := pageSize,
           totalPage := totalPage total pageSize }

/-- `UpdateQueue` (queue.go:133-155): silently succeed if the directory is
missing; otherwise overwrite `name`/`description` in the stored descriptor
and rewrite the metadata file. -/
def UpdateQueue (s : State) (qid name description : String) :
    Except StoreError Unit × State :=
  match lookupQ s qid with
  | none => (.ok (), s)
  | some d =>
    match d.meta with
    | none => (.error (.readFailed qid), s)
    | some q =>
      (.ok (),
       setQ s qid { d with meta := some { q with name := name, description := description } })

/-- `DelQueue` (queue.go:157-164): `os.RemoveAll` of the whole directory;
removing a missing queue is not an error. -/
def DelQueue (s : State) (qid : String) : Except StoreError Unit × State :=
  (.ok (), s.filter fun p => p.1 ≠ qid)

/-- `CreateMsg` (queue.go:166-200): reject a deadline closer than now + 300 s,
then a missing queue directory; otherwise persist a fresh record with
`retried = 0`, zero terminal markers, zero `reenterTime` and
`updateTime = now`. The fresh uuid is passed in as a parameter. -/
def CreateMsg (s : State) (now : Int) (newId qid name payload : String)
    (deadline retry timeout : Int) :
    Except StoreError String × State :=
  if deadline < now + 300 then (.error .deadlineTooSoon, s)
  else
    match lookupQ s qid with
    | none => (.error .resourceNotFound, s)
    | some d =>
      let m : MsgLocal :=
        { id := newId, queueId := qid, name := name, payload := payload,
          deadline := deadline, retry := retry, timeout := timeout,
          retried := 0, successAt := 0, failedAt := 0, desc := "",
          reenterTime := 0, updateTime := now }
      (.ok newId, setQ s qid { d with msgs := d.msgs ++ [(newId, some m)] })

/-- The purge test of the poll scan (queue.go:225-226): "msg is finished". -/
def isFinished (now : Int) (m : MsgLocal) : Bool :=
  m.successAt > 0 || m.failedAt > 0 || m.deadline < now ||
    (m.reenterTime < now && m.retry ≤ m.retried)

/-- The skip test of the poll scan (queue.go:231): "msg is not reenter queue",
i.e. the lease is set and still in the future. -/
def isInFlight (now : Int) (m : MsgLocal) : Bool :=
  m.reenterTime ≠ 0 && now < m.reenterTime

/-- The `filepath.WalkDir` body of `GetMsg` (queue.go:207-238): delete
finished records as they are met, skip in-flight ones, collect the eligible
ones; an unreadable file aborts the walk, leaving the deletions already
performed in place and the remaining files untouched. Returns the collected
eligible records (or the abort error) together with the surviving files. -/
def walkMsgs (now : Int) :
    List (String × Option MsgLocal) →
      Except StoreError (List MsgLocal) × List (String × Option MsgLocal)
  | [] => (.ok [], [])
  | (i, none) :: rest => (.error (.readFailed i), (i, none) :: rest)
  | (i, some m) :: rest =>
    if isFinished now m then walkMsgs now rest
    else if isInFlight now m then
      let r := walkMsgs now rest
      (r.1, (i, some m) :: r.2)
    else
      let r := walkMsgs now rest
      (match r.1 with
       | .ok l => .ok (m :: l)
       | .error e => .error e,
       (i, some m) :: r.2)

/-- The comparator handed to `sort.Slice` in `GetMsg` (queue.go:242-244), as
the non-strict `le`: ascending by `updateTime`. -/
def msgLe (a b : MsgLocal) : Bool :=
  decide (a.updateTime ≤ b.updateTime)

/-- The lease grant applied to each selected message (queue.go:251-252):
`reenterTime = now + timeout` seconds and `retried` incremented; every other
field, `updateTime` included, is carried over unchanged. -/
def leaseMsg (now : Int) (m : MsgLocal) : MsgLocal :=
  { m with reenterTime := now + m.timeout, retried := m.retried + 1 }

/-- `GetMsg` (queue.go:202-278): walk the queue directory (an error if the
path is missing), sort the eligible records by `updateTime`, truncate to
`limit`, then for each selected record persist the lease grant and return
the post-lease response snapshot. -/
def GetMsg (s : State) (now : Int) (qid : String) (limit : Nat) :
    Except StoreError (List Msg) × State :=
  match lookupQ s qid with
  | none => (.error (.pathError qid), s)
  | some d =>
    match walkMsgs now d.msgs with
    | (.error e, fs) => (.error e, setQ s qid { d with msgs := fs })
    | (.ok ms, fs) =>
      let sorted := sortLe msgLe ms
      let msgs := if limit < sorted.length then sorted.take limit else sorted
      let leased := msgs.map (leaseMsg now)
      let fs2 := leased.foldl (fun acc m => writeMsgFile acc m.id m) fs
      (.ok (leased.map MsgLocal.toMsg), setQ s qid { d with msgs := fs2 })

/-- `AckMsg` (queue.go:280-307): `ErrResourceNotFound` if the message file is
missing or the record was never leased (`reenterTime` zero); a late-ack error
if the lease already expired; otherwise delete the file. -/
def AckMsg (s : State) (now : Int) (qid mid : String) :
    Except StoreError Unit × State :=
  match lookupQ s qid with
  | none => (.error .resourceNotFound, s)
  | some d =>
    match findFile d.msgs mid with
    | none => (.error .resourceNotFound, s)
    | some none => (.error (.readFailed mid), s)
    | some (some m) =>
      if m.reenterTime = 0 then (.error .resourceNotFound, s)
      else if m.reenterTime < now then (.error .ackTimeout, s)
      else (.ok (), setQ s qid { d with msgs := removeMsgFile d.msgs mid })

/-- Every message file is readable and parsable. -/
def readableB (ms : List (String × Option MsgLocal)) : Bool :=
  ms.all fun p => p.2.isSome

/-- Every readable message record carries its own file's base name as its id
(the invariant `CreateMsg` establishes and `GetMsg`'s rewrite preserves). -/
def idsMatchB (ms : List (String × Option MsgLocal)) : Bool :=
  ms.all fun p =>
    match p.2 with
    | some m => m.id == p.1
    | none => true

/-- The file names inside one queue directory are distinct. -/
abbrev keysNodup (ms : List (String × Option MsgLocal)) : Prop :=
  (ms.map Prod.fst).Nodup

/-- The files a fully successful poll walk leaves on disk: everything except
the finished records (proved equal to the second component of `walkMsgs` on a
readable directory). -/
def survOf (now : Int) (ms : List (String × Option MsgLocal)) :
    List (String × Option MsgLocal) :=
  ms.filter fun p =>
    match p.2 with
    | some m => !(isFinished now m)
    | none => true

/-- The records a fully successful poll walk collects as eligible (proved
equal to the first component of `walkMsgs` on a readable directory). -/
def eligOf (now : Int) (ms : List (String × Option MsgLocal)) : List MsgLocal :=
  ms.filterMap fun p =>
    match p.2 with
    | some m => if !(isFinished now m) && !(isInFlight now m) then some m else none
    | none => none

/-- The post-lease records a poll of a readable directory selects, in
response order: eligible records sorted by `updateTime`, truncated to
`limit`, with the lease grant applied. -/
def pollSel (now : Int) (limit : Nat) (ms : List (String × Option MsgLocal)) :
    List MsgLocal :=
  let sorted := sortLe msgLe (eligOf now ms)
  (if limit < sorted.length then sorted.take limit else sorted).map (leaseMsg now)

/-- The record `CreateMsg` persists on success (queue.go:176-187), with the
fresh uuid and the enqueue instant as parameters. -/
def newMsgRec (now : Int) (newId qid nm pl : String) (dl rt tm : Int) : MsgLocal :=
  { id := newId, queueId := qid, name := nm, payload := pl, deadline := dl,
    retry := rt, timeout := tm, retried := 0, successAt := 0, failedAt := 0,
    desc := "", reenterTime := 0, updateTime := now }

/-- A freshly enqueued record: never leased (`reenterTime = 0`), one retry
allowed, written at instant 500 with deadline 2000. -/
def exMsgFresh : MsgLocal :=
  { id := "a", queueId := "q", name := "n", payload := "p", deadline := 2000,
    retry := 1, timeout := 60, retried := 0, successAt := 0, failedAt := 0,
    desc := "", reenterTime := 0, updateTime := 500 }

/-- One queue holding only `exMsgFresh`. -/
def exStateFresh : State := [("q", { meta := none, msgs := [("a", some exMsgFresh)] })]

/-- The fresh record after a lease at instant 1000 with `timeout = 60`,
with a larger retry budget. -/
def exMsgLeased : MsgLocal :=
  { exMsgFresh with reenterTime := 1060, retried := 1, retry := 3 }

/-- One queue holding only the leased record. -/
def exStateLeased : State := [("q", { meta := none, msgs := [("a", some exMsgLeased)] })]

/-- The leased record with a deadline (900) that passes while the lease
(until 1060) is still running. -/
def exMsgLeasedPastDeadline : MsgLocal := { exMsgLeased with deadline := 900 }

/-- One queue holding only `exMsgLeasedPastDeadline`. -/
def exStateLeasedPastDeadline : State :=
  [("q", { meta := none, msgs := [("a", some exMsgLeasedPastDeadline)] })]

/-- A record with a terminal marker set. -/
def exMsgDone : MsgLocal := { exMsgFresh with successAt := 7 }

/-- One queue holding a terminal record followed by an unreadable file. -/
def exStateMixed : State :=
  [("q", { meta := none, msgs := [("a", some exMsgDone), ("b", none)] })]

/-- A record whose lease expired (at 900) with the retry budget exhausted. -/
def exMsgExhausted : MsgLocal :=
  { exMsgFresh with retried := 1, retry := 1, reenterTime := 900 }

/-- One queue holding only the exhausted record. -/
def exStateExhausted : State :=
  [("q", { meta := none, msgs := [("a", some exMsgExhausted)] })]

/-- A concrete queue descriptor. -/
def exQueueMeta : Queue :=
  { id := "q", name := "orders", description := "d", runId := "r",
    actorId := "ac", createdAt := "2021" }

/-- A queue with a readable descriptor and no messages. -/
def exStateWithMeta : State := [("q", { meta := some exQueueMeta, msgs := [] })]

theorem mem_insertLe {α : Type} (le : α → α → Bool) (a x : α) (l : List α) :
    x ∈ insertLe le a l ↔ x = a ∨ x ∈ l := by
  induction l with
  | nil => simp [insertLe]
  | cons b bs ih =>
    simp only [insertLe]
    by_cases h : le a b = true
    · simp [h]
    · simp only [h, if_false, Bool.false_eq_true, List.mem_cons, ih]
      tauto

theorem perm_insertLe {α : Type} (le : α → α → Bool) (a : α) (l : List α) :
    (insertLe le a l).Perm (a :: l) := by
  induction l with
  | nil => exact List.Perm.refl _
  | cons b bs ih =>
    simp only [insertLe]
    by_cases h : le a b = true
    · simp [h]
    · rw [if_neg h]
      exact (List.Perm.cons b ih).trans (List.Perm.swap a b bs)

theorem perm_sortLe {α : Type} (le : α → α → Bool) (l : List α) :
    (sortLe le l).Perm l := by
  induction l with
  | nil => exact List.Perm.refl _
  | cons a as ih =>
    simp only [sortLe]
    exact (perm_insertLe le a (sortLe le as)).trans (List.Perm.cons a ih)

theorem mem_sortLe {α : Type} (le : α → α → Bool) (x : α) (l : List α) :
    x ∈ sortLe le l ↔ x ∈ l :=
  (perm_sortLe le l).mem_iff

theorem length_sortLe {α : Type} (le : α → α → Bool) (l : List α) :
    (sortLe le l).length = l.length :=
  (perm_sortLe le l).length_eq

theorem pairwise_insertLe {α : Type} (le : α → α → Bool)
    (htot : ∀ a b, le a b = true ∨ le b a = true)
    (htrans : ∀ a b c, le a b = true → le b c = true → le a c = true)
    (a : α) (l : List α) (h : l.Pairwise fun x y => le x y = true) :
    (insertLe le a l).Pairwise fun x y => le x y = true := by
  induction l with
  | nil => simp [insertLe]
  | cons b bs ih =>
    rw [List.pairwise_cons] at h
    obtain ⟨hb, hbs⟩ := h
    simp only [insertLe]
    by_cases hab : le a b = true
    · rw [if_pos hab, List.pairwise_cons]
      refine ⟨?_, List.pairwise_cons.mpr ⟨hb, hbs⟩⟩
      intro x hx
      rcases List.mem_cons.mp hx with rfl | hx
      · exact hab
      · exact htrans a b x hab (hb x hx)
    · rw [if_neg hab, List.pairwise_cons]
      refine ⟨?_, ih hbs⟩
      intro x hx
      rcases (mem_insertLe le a x bs).mp hx with heq | hx
      · rw [heq]
        rcases htot a b with h1 | h1
        · exact absurd h1 hab
        · exact h1
      · exact hb x hx

theorem pairwise_sortLe {α : Type} (le : α → α → Bool)
    (htot : ∀ a b, le a b = true ∨ le b a = true)
    (htrans : ∀ a b c, le a b = true → le b c = true → le a c = true)
    (l : List α) :
    (sortLe le l).Pairwise fun x y => le x y = true := by
  induction l with
  | nil => simp [sortLe]
  | cons b bs ih => exact pairwise_insertLe le htot htrans b (sortLe le bs) ih

theorem findFile_eq_none_iff (ms : List (String × Option MsgLocal)) (i : String) :
    findFile ms i = none ↔ i ∉ ms.map Prod.fst := by
  induction ms with
  | nil => simp [findFile]
  | cons p rest ih =>
    obtain ⟨k, v⟩ := p
    simp only [findFile, List.map_cons, List.mem_cons]
    by_cases h : k = i
    · subst h; simp
    · rw [if_neg h, ih]
      constructor
      · intro hni hor
        rcases hor with h1 | h1
        · exact h h1.symm
        · exact hni h1
      · intro hni h1
        exact hni (Or.inr h1)

theorem mem_of_findFile (ms : List (String × Option MsgLocal)) (i : String)
    (v : Option MsgLocal) (h : findFile ms i = some v) : (i, v) ∈ ms := by
  induction ms with
  | nil => cases h
  | cons p rest ih =>
    obtain ⟨k, w⟩ := p
    simp only [findFile] at h
    by_cases hk : k = i
    · subst hk
      rw [if_pos rfl] at h
      injection h with h
      subst h
      exact List.mem_cons_self _ _
    · rw [if_neg hk] at h
      exact List.mem_cons_of_mem _ (ih h)

theorem findFile_eq_of_mem (ms : List (String × Option MsgLocal)) (i : String)
    (v : Option MsgLocal) (hnd : keysNodup ms) (h : (i, v) ∈ ms) :
    findFile ms i = some v := by
  induction ms with
  | nil => cases h
  | cons p rest ih =>
    obtain ⟨k, w⟩ := p
    rw [keysNodup, List.map_cons, List.nodup_cons] at hnd
    obtain ⟨hk, hnd'⟩ := hnd
    rcases List.mem_cons.mp h with heq | hmem
    · cases heq
      simp [findFile]
    · have hne : k ≠ i := by
        intro he
        subst he
        exact hk (List.mem_map.mpr ⟨(k, v), hmem, rfl⟩)
      simp only [findFile, if_neg hne]
      exact ih hnd' hmem

theorem findFile_append (ms ns : List (String × Option MsgLocal)) (i : String) :
    findFile (ms ++ ns) i =
      match findFile ms i with
      | some v => some v
      | none => findFile ns i := by
  induction ms with
  | nil => simp [findFile]
  | cons p rest ih =>
    obtain ⟨k, w⟩ := p
    simp only [List.cons_append, findFile]
    by_cases hk : k = i
    · simp [hk]
    · simp [hk, ih]

theorem findFile_map_overwrite (ms : List (String × Option MsgLocal)) (i : String)
    (m : MsgLocal) (h : ms.any (fun p => p.1 = i) = true) :
    findFile (ms.map fun p => if p.1 = i then (i, some m) else p) i = some (some m) := by
  induction ms with
  | nil => simp at h
  | cons p rest ih =>
    obtain ⟨k, w⟩ := p
    rw [List.map_cons]
    by_cases hk : k = i
    · have hhead : (if (k, w).1 = i then ((i, some m) : String × Option MsgLocal)
          else (k, w)) = (i, some m) := by
        simp [hk]
      rw [hhead]
      simp [findFile]
    · have hhead : (if (k, w).1 = i then ((i, some m) : String × Option MsgLocal)
          else (k, w)) = (k, w) := by
        simp [hk]
      rw [hhead]
      simp only [findFile, if_neg hk]
      apply ih
      simpa [List.any_cons, hk] using h

theorem findFile_writeMsgFile_self (ms : List (String × Option MsgLocal)) (i : String)
    (m : MsgLocal) : findFile (writeMsgFile ms i m) i = some (some m) := by
  unfold writeMsgFile
  by_cases h : ms.any (fun p => p.1 = i) = true
  · rw [if_pos h]
    exact findFile_map_overwrite ms i m h
  · rw [if_neg h, findFile_append]
    have hnone : findFile ms i = none := by
      rw [findFile_eq_none_iff]
      intro hmem
      apply h
      obtain ⟨p, hp, hp1⟩ := List.mem_map.mp hmem
      exact List.any_eq_true.mpr ⟨p, hp, by simp [hp1]⟩
    rw [hnone]
    simp [findFile]

theorem findFile_writeMsgFile_ne (ms : List (String × Option MsgLocal)) (i : String)
    (m : MsgLocal) (j : String) (h : j ≠ i) :
    findFile (writeMsgFile ms i m) j = findFile ms j := by
  unfold writeMsgFile
  by_cases hc : ms.any (fun p => p.1 = i) = true
  · rw [if_pos hc]
    clear hc
    induction ms with
    | nil => rfl
    | cons p rest ih =>
      obtain ⟨k, w⟩ := p
      rw [List.map_cons]
      by_cases hk : k = i
      · have hhead : (if (k, w).1 = i then ((i, some m) : String × Option MsgLocal)
            else (k, w)) = (i, some m) := by
          simp [hk]
        rw [hhead]
        simp only [findFile, if_neg (Ne.symm h)]
        have hkj : ¬ k = j := by
          rw [hk]
          exact Ne.symm h
        rw [if_neg hkj]
        exact ih
      · have hhead : (if (k, w).1 = i then ((i, some m) : String × Option MsgLocal)
            else (k, w)) = (k, w) := by
          simp [hk]
        rw [hhead]
        simp only [findFile]
        by_cases hkj : k = j
        · rw [if_pos hkj, if_pos hkj]
        · rw [if_neg hkj, if_neg hkj]
          exact ih
  · rw [if_neg hc, findFile_append]
    cases hf : findFile ms j with
    | some v => rfl
    | none =>
      simp only [findFile]
      rw [if_neg (show ¬ i = j from fun he => h he.symm)]

theorem findFile_foldl_write_ne (L : List MsgLocal) (j : String)
    (h : ∀ m ∈ L, m.id ≠ j) (fs : List (String × Option MsgLocal)) :
    findFile (L.foldl (fun acc m => writeMsgFile acc m.id m) fs) j = findFile fs j := by
  induction L generalizing fs with
  | nil => rfl
  | cons a t ih =>
    rw [List.foldl_cons, ih (fun m hm => h m (List.mem_cons_of_mem _ hm))]
    exact findFile_writeMsgFile_ne fs a.id a j
      (fun he => h a (List.mem_cons_self _ _) he.symm)

theorem findFile_foldl_write_self (L : List MsgLocal)
    (hnd : (L.map MsgLocal.id).Nodup) (m : MsgLocal) (hm : m ∈ L)
    (fs : List (String × Option MsgLocal)) :
    findFile (L.foldl (fun acc m => writeMsgFile acc m.id m) fs) m.id
      = some (some m) := by
  induction L generalizing fs with
  | nil => cases hm
  | cons a t ih =>
    rw [List.map_cons, List.nodup_cons] at hnd
    obtain ⟨ha, hnd'⟩ := hnd
    rw [List.foldl_cons]
    rcases List.mem_cons.mp hm with rfl | hm'
    · rw [findFile_foldl_write_ne t m.id
        (fun x hx he => ha (he ▸ List.mem_map.mpr ⟨x, hx, rfl⟩))]
      exact findFile_writeMsgFile_self fs m.id m
    · exact ih hnd' hm' _

theorem lookupQ_setQ_self (s : State) (q : String) (d0 d : QueueDir)
    (h : lookupQ s q = some d0) : lookupQ (setQ s q d) q = some d := by
  induction s with
  | nil => cases h
  | cons p rest ih =>
    obtain ⟨k, dd⟩ := p
    simp only [lookupQ] at h
    rw [setQ, List.map_cons]
    by_cases hk : k = q
    · have hhead : (if (k, dd).1 = q then ((q, d) : String × QueueDir)
          else (k, dd)) = (q, d) := by
        simp [hk]
      rw [hhead]
      simp [lookupQ]
    · have hhead : (if (k, dd).1 = q then ((q, d) : String × QueueDir)
          else (k, dd)) = (k, dd) := by
        simp [hk]
      rw [hhead]
      simp only [lookupQ, if_neg hk]
      rw [if_neg hk] at h
      exact ih h

theorem idsMatch_mem (ms : List (String × Option MsgLocal)) (h : idsMatchB ms = true)
    (i : String) (m : MsgLocal) (hm : (i, some m) ∈ ms) : m.id = i := by
  rw [idsMatchB, List.all_eq_true] at h
  have h2 := h (i, some m) hm
  simpa using h2

theorem mem_unique_of_keysNodup (ms : List (String × Option MsgLocal))
    (hnd : keysNodup ms) (i : String) (a b : Option MsgLocal)
    (ha : (i, a) ∈ ms) (hb : (i, b) ∈ ms) : a = b := by
  have h1 := findFile_eq_of_mem ms i a hnd ha
  have h2 := findFile_eq_of_mem ms i b hnd hb
  rw [h1] at h2
  exact Option.some.inj h2

theorem walkMsgs_eq_of_readable (now : Int) (ms : List (String × Option MsgLocal))
    (h : readableB ms = true) :
    walkMsgs now ms = (.ok (eligOf now ms), survOf now ms) := by
  induction ms with
  | nil => rfl
  | cons p rest ih =>
    obtain ⟨i, om⟩ := p
    cases om with
    | none => simp [readableB] at h
    | some m =>
      have hr : readableB rest = true := by
        rw [readableB, List.all_cons, Bool.and_eq_true] at h
        exact h.2
      by_cases hf : isFinished now m = true
      · have h1 : walkMsgs now ((i, some m) :: rest) = walkMsgs now rest := by
          simp [walkMsgs, hf]
        have h2 : eligOf now ((i, some m) :: rest) = eligOf now rest := by
          simp [eligOf, List.filterMap_cons, hf]
        have h3 : survOf now ((i, some m) :: rest) = survOf now rest := by
          simp [survOf, List.filter_cons, hf]
        rw [h1, h2, h3, ih hr]
      · rw [Bool.not_eq_true] at hf
        by_cases hi : isInFlight now m = true
        · have h1 : walkMsgs now ((i, some m) :: rest)
              = ((walkMsgs now rest).1, (i, some m) :: (walkMsgs now rest).2) := by
            simp [walkMsgs, hf, hi]
          have h2 : eligOf now ((i, some m) :: rest) = eligOf now rest := by
            simp [eligOf, List.filterMap_cons, hf, hi]
          have h3 : survOf now ((i, some m) :: rest)
              = (i, some m) :: survOf now rest := by
            simp [survOf, List.filter_cons, hf]
          rw [h1, h2, h3, ih hr]
        · rw [Bool.not_eq_true] at hi
          have h1 : walkMsgs now ((i, some m) :: rest)
              = (match (walkMsgs now rest).1 with
                 | .ok l => .ok (m :: l)
                 | .error e => .error e,
                 (i, some m) :: (walkMsgs now rest).2) := by
            simp [walkMsgs, hf, hi]
          have h2 : eligOf now ((i, some m) :: rest) = m :: eligOf now rest := by
            simp [eligOf, List.filterMap_cons, hf, hi]
          have h3 : survOf now ((i, some m) :: rest)
              = (i, some m) :: survOf now rest := by
            simp [survOf, List.filter_cons, hf]
          rw [h1, h2, h3, ih hr]

theorem walkMsgs_ok_mem (now : Int) (ms : List (String × Option MsgLocal))
    (l : List MsgLocal) (fs : List (String × Option MsgLocal))
    (h : walkMsgs now ms = (.ok l, fs)) :
    ∀ m ∈ l, ∃ i, (i, some m) ∈ ms := by
  induction ms generalizing l fs with
  | nil =>
    simp only [walkMsgs] at h
    obtain ⟨h1, _⟩ := Prod.mk.injEq .. ▸ h
    injection h1 with h1
    subst h1
    intro m hm
    cases hm
  | cons p rest ih =>
    obtain ⟨i, om⟩ := p
    cases om with
    | none =>
      simp only [walkMsgs] at h
      obtain ⟨h1, _⟩ := Prod.mk.injEq .. ▸ h
      cases h1
    | some m0 =>
      simp only [walkMsgs] at h
      by_cases hf : isFinished now m0 = true
      · rw [if_pos hf] at h
        intro m hm
        obtain ⟨j, hj⟩ := ih l fs h m hm
        exact ⟨j, List.mem_cons_of_mem _ hj⟩
      · rw [if_neg hf] at h
        by_cases hi : isInFlight now m0 = true
        · rw [if_pos hi] at h
          rcases hw : walkMsgs now rest with ⟨r1, r2⟩
          rw [hw] at h
          obtain ⟨h1, _⟩ := Prod.mk.injEq .. ▸ h
          subst h1
          intro m hm
          obtain ⟨j, hj⟩ := ih l r2 hw m hm
          exact ⟨j, List.mem_cons_of_mem _ hj⟩
        · rw [if_neg hi] at h
          rcases hw : walkMsgs now rest with ⟨r1, r2⟩
          rw [hw] at h
          cases r1 with
          | error e =>
            obtain ⟨h1, _⟩ := Prod.mk.injEq .. ▸ h
            cases h1
          | ok l' =>
            obtain ⟨h1, _⟩ := Prod.mk.injEq .. ▸ h
            injection h1 with h1
            subst h1
            intro m hm
            rcases List.mem_cons.mp hm with rfl | hm'
            · exact ⟨i, List.mem_cons_self _ _⟩
            · obtain ⟨j, hj⟩ := ih l' r2 hw m hm'
              exact ⟨j, List.mem_cons_of_mem _ hj⟩

theorem mem_eligOf (now : Int) (ms : List (String × Option MsgLocal)) (m : MsgLocal) :
    m ∈ eligOf now ms ↔
      ∃ i, (i, some m) ∈ ms ∧ isFinished now m = false ∧ isInFlight now m = false := by
  rw [eligOf, List.mem_filterMap]
  constructor
  · rintro ⟨⟨i, om⟩, hmem, hf⟩
    cases om with
    | none => simp at hf
    | some m' =>
      simp only at hf
      by_cases h1 : (!isFinished now m' && !isInFlight now m') = true
      · rw [if_pos h1] at hf
        injection hf with hf
        subst hf
        rw [Bool.and_eq_true, Bool.not_eq_true', Bool.not_eq_true'] at h1
        exact ⟨i, hmem, h1.1, h1.2⟩
      · rw [if_neg h1] at hf
        cases hf
  · rintro ⟨i, hmem, h1, h2⟩
    refine ⟨(i, some m), hmem, ?_⟩
    simp [h1, h2]

theorem keys_survOf_sublist (now : Int) (ms : List (String × Option MsgLocal)) :
    ((survOf now ms).map Prod.fst).Sublist (ms.map Prod.fst) :=
  (List.filter_sublist ms).map Prod.fst

theorem findFile_survOf (now : Int) (ms : List (String × Option MsgLocal))
    (hnd : keysNodup ms) (i : String) (m : MsgLocal) (h : (i, some m) ∈ ms) :
    findFile (survOf now ms) i = if isFinished now m then none else some (some m) := by
  induction ms with
  | nil => cases h
  | cons p rest ih =>
    obtain ⟨k, w⟩ := p
    rw [keysNodup, List.map_cons, List.nodup_cons] at hnd
    obtain ⟨hk, hnd'⟩ := hnd
    rcases List.mem_cons.mp h with heq | hmem
    · cases heq
      by_cases hf : isFinished now m = true
      · rw [if_pos hf]
        have hs : survOf now ((i, some m) :: rest) = survOf now rest := by
          simp [survOf, List.filter_cons, hf]
        rw [hs, findFile_eq_none_iff]
        intro hc
        exact hk ((keys_survOf_sublist now rest).subset hc)
      · rw [if_neg hf]
        rw [Bool.not_eq_true] at hf
        have hs : survOf now ((i, some m) :: rest)
            = (i, some m) :: survOf now rest := by
          simp [survOf, List.filter_cons, hf]
        rw [hs]
        simp [findFile]
    · have hki : k ≠ i := by
        intro he
        subst he
        exact hk (List.mem_map.mpr ⟨(k, some m), hmem, rfl⟩)
      rw [← ih hnd' hmem]
      cases w with
      | none =>
        have hs : survOf now ((k, none) :: rest)
            = (k, none) :: survOf now rest := by
          simp [survOf, List.filter_cons]
        rw [hs]
        simp only [findFile, if_neg hki]
      | some w' =>
        by_cases hw : isFinished now w' = true
        · have hs : survOf now ((k, some w') :: rest) = survOf now rest := by
            simp [survOf, List.filter_cons, hw]
          rw [hs]
        · rw [Bool.not_eq_true] at hw
          have hs : survOf now ((k, some w') :: rest)
              = (k, some w') :: survOf now rest := by
            simp [survOf, List.filter_cons, hw]
          rw [hs]
          simp only [findFile, if_neg hki]

theorem findFile_foldl_write_isSome (L : List MsgLocal)
    (fs : List (String × Option MsgLocal)) (j : String)
    (h : (findFile fs j).isSome = true) :
    (findFile (L.foldl (fun acc m => writeMsgFile acc m.id m) fs) j).isSome = true := by
  induction L generalizing fs with
  | nil => exact h
  | cons a t ih =>
    rw [List.foldl_cons]
    apply ih
    by_cases hj : j = a.id
    · subst hj
      rw [findFile_writeMsgFile_self]
      rfl
    · rw [findFile_writeMsgFile_ne fs a.id a j hj]
      exact h

theorem GetMsg_eq_of_readable (s : State) (now : Int) (qid : String) (limit : Nat)
    (d : QueueDir) (hq : lookupQ s qid = some d) (hr : readableB d.msgs = true) :
    GetMsg s now qid limit =
      (.ok ((pollSel now limit d.msgs).map MsgLocal.toMsg),
       setQ s qid { d with msgs := (pollSel now limit d.msgs).foldl (fun acc m => writeMsgFile acc m.id m) (survOf now d.msgs) }) := by
  simp only [GetMsg, hq, walkMsgs_eq_of_readable now d.msgs hr, pollSel]

theorem mem_pollSel (now : Int) (limit : Nat) (ms : List (String × Option MsgLocal))
    (r : MsgLocal) (h : r ∈ pollSel now limit ms) :
    ∃ m0, m0 ∈ eligOf now ms ∧ r = leaseMsg now m0 := by
  simp only [pollSel] at h
  obtain ⟨m0, hm0, heq⟩ := List.mem_map.mp h
  refine ⟨m0, ?_, heq.symm⟩
  have hmem : m0 ∈ sortLe msgLe (eligOf now ms) := by
    by_cases hc : limit < (sortLe msgLe (eligOf now ms)).length
    · rw [if_pos hc] at hm0
      exact List.take_subset _ _ hm0
    · rw [if_neg hc] at hm0
      exact hm0
  exact (mem_sortLe msgLe m0 (eligOf now ms)).mp hmem

theorem pollSel_full (now : Int) (limit : Nat) (ms : List (String × Option MsgLocal))
    (m0 : MsgLocal) (hm : m0 ∈ eligOf now ms)
    (hlim : ¬ limit < (eligOf now ms).length) :
    leaseMsg now m0 ∈ pollSel now limit ms := by
  simp only [pollSel]
  rw [length_sortLe, if_neg hlim]
  exact List.mem_map.mpr ⟨m0, (mem_sortLe msgLe m0 (eligOf now ms)).mpr hm, rfl⟩

theorem eligOf_ids_sublist (now : Int) (ms : List (String × Option MsgLocal))
    (hids : idsMatchB ms = true) :
    ((eligOf now ms).map MsgLocal.id).Sublist (ms.map Prod.fst) := by
  induction ms with
  | nil => simp [eligOf]
  | cons p rest ih =>
    obtain ⟨i, om⟩ := p
    have hids' : idsMatchB rest = true := by
      rw [idsMatchB, List.all_cons, Bool.and_eq_true] at hids
      exact hids.2
    cases om with
    | none =>
      have h2 : eligOf now ((i, none) :: rest) = eligOf now rest := by
        simp [eligOf, List.filterMap_cons]
      rw [h2, List.map_cons]
      exact (ih hids').cons i
    | some m =>
      have him : m.id = i := idsMatch_mem _ hids i m (List.mem_cons_self _ _)
      by_cases hf : isFinished now m = true
      · have h2 : eligOf now ((i, some m) :: rest) = eligOf now rest := by
          simp [eligOf, List.filterMap_cons, hf]
        rw [h2, List.map_cons]
        exact (ih hids').cons i
      · rw [Bool.not_eq_true] at hf
        by_cases hi : isInFlight now m = true
        · have h2 : eligOf now ((i, some m) :: rest) = eligOf now rest := by
            simp [eligOf, List.filterMap_cons, hf, hi]
          rw [h2, List.map_cons]
          exact (ih hids').cons i
        · rw [Bool.not_eq_true] at hi
          have h2 : eligOf now ((i, some m) :: rest) = m :: eligOf now rest := by
            simp [eligOf, List.filterMap_cons, hf, hi]
          rw [h2, List.map_cons, List.map_cons, him]
          exact (ih hids').cons₂ i

theorem pollSel_ids_nodup (now : Int) (limit : Nat)
    (ms : List (String × Option MsgLocal))
    (hids : idsMatchB ms = true) (hnd : keysNodup ms) :
    ((pollSel now limit ms).map MsgLocal.id).Nodup := by
  have h1 : ((eligOf now ms).map MsgLocal.id).Nodup :=
    (eligOf_ids_sublist now ms hids).nodup hnd
  have hperm : ((sortLe msgLe (eligOf now ms)).map MsgLocal.id).Perm
      ((eligOf now ms).map MsgLocal.id) :=
    (perm_sortLe msgLe (eligOf now ms)).map _
  have h2 : ((sortLe msgLe (eligOf now ms)).map MsgLocal.id).Nodup :=
    hperm.nodup_iff.mpr h1
  simp only [pollSel]
  rw [List.map_map]
  have hid : (MsgLocal.id ∘ leaseMsg now) = MsgLocal.id := funext fun m => rfl
  rw [hid]
  by_cases hc : limit < (sortLe msgLe (eligOf now ms)).length
  · rw [if_pos hc, List.map_take]
    exact (List.take_sublist _ _).nodup h2
  · rw [if_neg hc]
    exact h2

theorem strLt_asymm : ∀ a b : List Char, strLt a b = true → strLt b a = false := by
  intro a
  induction a with
  | nil =>
    intro b h
    cases b with
    | nil => cases h
    | cons d ds => rfl
  | cons c cs ih =>
    intro b h
    cases b with
    | nil => cases h
    | cons d ds =>
      simp only [strLt] at h ⊢
      by_cases hcd : c < d
      · rw [if_neg (lt_asymm hcd), if_pos hcd]
      · rw [if_neg hcd] at h
        by_cases hdc : d < c
        · rw [if_pos hdc] at h
          cases h
        · rw [if_neg hdc] at h
          rw [if_neg hdc, if_neg hcd]
          exact ih ds h

theorem strLt_conn : ∀ a b : List Char, strLt a b = false → strLt b a = false → a = b := by
  intro a
  induction a with
  | nil =>
    intro b h1 h2
    cases b with
    | nil => rfl
    | cons d ds => cases h1
  | cons c cs ih =>
    intro b h1 h2
    cases b with
    | nil => cases h2
    | cons d ds =>
      simp only [strLt] at h1 h2
      by_cases hcd : c < d
      · rw [if_pos hcd] at h1
        cases h1
      · by_cases hdc : d < c
        · rw [if_pos hdc] at h2
          cases h2
        · rw [if_neg hcd, if_neg hdc] at h1
          rw [if_neg hdc, if_neg hcd] at h2
          have hce : c = d := le_antisymm (not_lt.mp hdc) (not_lt.mp hcd)
          rw [hce, ih ds h1 h2]

theorem strLt_trans : ∀ a b c : List Char,
    strLt a b = true → strLt b c = true → strLt a c = true := by
  intro a
  induction a with
  | nil =>
    intro b c h1 h2
    cases b with
    | nil => cases h1
    | cons y ys =>
      cases c with
      | nil => cases h2
      | cons z zs => rfl
  | cons x xs ih =>
    intro b c h1 h2
    cases b with
    | nil => cases h1
    | cons y ys =>
      cases c with
      | nil => cases h2
      | cons z zs =>
        simp only [strLt] at h1 h2 ⊢
        by_cases hxy : x < y
        · by_cases hyz : y < z
          · rw [if_pos (lt_trans hxy hyz)]
          · rw [if_neg hyz] at h2
            by_cases hzy : z < y
            · rw [if_pos hzy] at h2
              cases h2
            · have hyez : y = z := le_antisymm (not_lt.mp hzy) (not_lt.mp hyz)
              rw [if_pos (hyez ▸ hxy)]
        · rw [if_neg hxy] at h1
          by_cases hyx : y < x
          · rw [if_pos hyx] at h1
            cases h1
          · rw [if_neg hyx] at h1
            have hxey : x = y := le_antisymm (not_lt.mp hyx) (not_lt.mp hxy)
            by_cases hyz : y < z
            · rw [if_pos (hxey ▸ hyz : x < z)]
            · rw [if_neg hyz] at h2
              by_cases hzy : z < y
              · rw [if_pos hzy] at h2
                cases h2
              · rw [if_neg hzy] at h2
                have hyez : y = z := le_antisymm (not_lt.mp hzy) (not_lt.mp hyz)
                have hxez : x = z := hxey.trans hyez
                rw [← hxez, if_neg (lt_irrefl x), if_neg (lt_irrefl x)]
                exact ih ys zs h1 h2

theorem queueLe_false_eq (a b : Queue) :
    queueLe false a b = !(strLtS b.createdAt a.createdAt) := rfl

theorem queueLe_true_eq (a b : Queue) :
    queueLe true a b = !(strLtS a.createdAt b.createdAt) := rfl

theorem queueLe_total (desc : Bool) (a b : Queue) :
    queueLe desc a b = true ∨ queueLe desc b a = true := by
  cases desc with
  | false =>
    rw [queueLe_false_eq, queueLe_false_eq, Bool.not_eq_true', Bool.not_eq_true']
    by_cases h : strLt b.createdAt.data a.createdAt.data = true
    · right
      exact strLt_asymm _ _ h
    · left
      rw [Bool.not_eq_true] at h
      exact h
  | true =>
    rw [queueLe_true_eq, queueLe_true_eq, Bool.not_eq_true', Bool.not_eq_true']
    by_cases h : strLt a.createdAt.data b.createdAt.data = true
    · right
      exact strLt_asymm _ _ h
    · left
      rw [Bool.not_eq_true] at h
      exact h

theorem queueLe_trans (desc : Bool) (a b c : Queue) :
    queueLe desc a b = true → queueLe desc b c = true → queueLe desc a c = true := by
  cases desc with
  | false =>
    rw [queueLe_false_eq, queueLe_false_eq, queueLe_false_eq,
      Bool.not_eq_true', Bool.not_eq_true', Bool.not_eq_true']
    simp only [strLtS]
    intro h1 h2
    by_cases hca : strLt c.createdAt.data a.createdAt.data = true
    · by_cases hbc : strLt b.createdAt.data c.createdAt.data = true
      · rw [strLt_trans _ _ _ hbc hca] at h1
        cases h1
      · rw [Bool.not_eq_true] at hbc
        have hbec := strLt_conn _ _ hbc h2
        rw [← hbec] at hca
        rw [hca] at h1
        cases h1
    · rw [Bool.not_eq_true] at hca
      exact hca
  | true =>
    rw [queueLe_true_eq, queueLe_true_eq, queueLe_true_eq,
      Bool.not_eq_true', Bool.not_eq_true', Bool.not_eq_true']
    simp only [strLtS]
    intro h1 h2
    by_cases hac : strLt a.createdAt.data c.createdAt.data = true
    · by_cases hcb : strLt c.createdAt.data b.createdAt.data = true
      · rw [strLt_trans _ _ _ hac hcb] at h1
        cases h1
      · rw [Bool.not_eq_true] at hcb
        have hbec := strLt_conn _ _ h2 hcb
        rw [← hbec] at hac
        rw [hac] at h1
        cases h1
    · rw [Bool.not_eq_true] at hac
      exact hac

theorem GetMsg_ok_resp (s : State) (now : Int) (qid : String) (limit : Nat)
    (resp : List Msg) (s2 : State) (d : QueueDir)
    (hq : lookupQ s qid = some d)
    (h : GetMsg s now qid limit = (.ok resp, s2)) :
    ∀ r ∈ resp, ∃ i m0, (i, some m0) ∈ d.msgs ∧ r.id = m0.id := by
  simp only [GetMsg, hq] at h
  rcases hw : walkMsgs now d.msgs with ⟨r1, r2⟩
  rw [hw] at h
  cases r1 with
  | error e => simp at h
  | ok l =>
    simp only [] at h
    have h1 : ((if limit < (sortLe msgLe l).length then (sortLe msgLe l).take limit
        else sortLe msgLe l).map (leaseMsg now)).map MsgLocal.toMsg = resp := by
      have := congrArg Prod.fst h
      simpa using this
    intro r hr
    rw [← h1] at hr
    obtain ⟨m1, hm1, heq⟩ := List.mem_map.mp hr
    obtain ⟨m0, hm0, heq2⟩ := List.mem_map.mp hm1
    have hl : m0 ∈ l := by
      by_cases hc : limit < (sortLe msgLe l).length
      · rw [if_pos hc] at hm0
        exact (mem_sortLe msgLe m0 l).mp (List.take_subset _ _ hm0)
      · rw [if_neg hc] at hm0
        exact (mem_sortLe msgLe m0 l).mp hm0
    obtain ⟨i, hi⟩ := walkMsgs_ok_mem now d.msgs l r2 hw m0 hl
    refine ⟨i, m0, hi, ?_⟩
    rw [← heq, ← heq2]
    rfl

theorem isFinished_iff (now : Int) (m : MsgLocal) :
    isFinished now m = true ↔
      (m.successAt > 0 ∨ m.failedAt > 0 ∨ m.deadline < now ∨
        (m.reenterTime < now ∧ m.retry ≤ m.retried)) := by
  simp [isFinished, Bool.or_eq_true, Bool.and_eq_true, decide_eq_true_eq, or_assoc]

theorem pollSel_id_ne (now : Int) (limit : Nat) (ms : List (String × Option MsgLocal))
    (hids : idsMatchB ms = true) (hnd : keysNodup ms) (i : String) (m : MsgLocal)
    (hm : (i, some m) ∈ ms)
    (hne : isFinished now m = true ∨ isInFlight now m = true) :
    ∀ x ∈ pollSel now limit ms, x.id ≠ i := by
  intro x hx he
  obtain ⟨m0, hm0e, hxe⟩ := mem_pollSel now limit ms x hx
  obtain ⟨i0, hi0, hf0, hifl0⟩ := (mem_eligOf now ms m0).mp hm0e
  have hid0 : m0.id = i0 := idsMatch_mem _ hids i0 m0 hi0
  have hii : i0 = i := by
    rw [← hid0]
    rw [hxe] at he
    exact he
  subst hii
  have heq2 : (some m0 : Option MsgLocal) = some m :=
    mem_unique_of_keysNodup ms hnd i0 _ _ hi0 hm
  have heq3 : m0 = m := Option.some.inj heq2
  subst heq3
  rcases hne with h1 | h1
  · rw [hf0] at h1
    cases h1
  · rw [hifl0] at h1
    cases h1

/-- C9: for some input — here one readable queue, `page = 0`, `pageSize = 1` —
`GetQueues` computes the negative slice start `(page-1)*pageSize = -1`, and the
slice expression is out of bounds (`none` models Go's slice-bounds panic), so
the call produces neither a result nor an error value. -/
theorem C9_page_zero_panic :
    GetQueues exStateWithMeta 0 1 false = none ∧ ((0 : Int) - 1) * 1 < 0 := by
  decide

/-- C8 counterexample: polling a queue whose directory holds a terminal
record `"a"` followed by an unreadable file `"b"` returns an error, yet the
post-state differs from the pre-state — the purge of `"a"` persisted. This
refutes the claim that every operation leaves stored state untouched
whenever it returns an error. -/
theorem C8_counterexample :
    (GetMsg exStateMixed 1000 "q" 5).1 = .error (.readFailed "b")
    ∧ (GetMsg exStateMixed 1000 "q" 5).2 ≠ exStateMixed := by
  decide

/-- C8 (amended): every operation except the poll — queue create, update and
delete, message enqueue and acknowledge — leaves the stored state exactly as
it was whenever it returns an error (`GetQueue`/`GetQueues` read without
returning state); `GetMsg` is the exception, since purges performed before a
walk failure persist (see the counterexample). -/
theorem C8_error_frame (s : State) (now : Int) :
    (∀ newId createdAt nm de runId actorId e,
      (CreateQueue s newId createdAt nm de runId actorId).1 = .error e →
      (CreateQueue s newId createdAt nm de runId actorId).2 = s)
    ∧ (∀ qid nm de e,
        (UpdateQueue s qid nm de).1 = .error e → (UpdateQueue s qid nm de).2 = s)
    ∧ (∀ qid, (DelQueue s qid).1 = .ok ())
    ∧ (∀ newId qid nm pl dl rt tm e,
        (CreateMsg s now newId qid nm pl dl rt tm).1 = .error e →
        (CreateMsg s now newId qid nm pl dl rt tm).2 = s)
    ∧ (∀ qid mid e,
        (AckMsg s now qid mid).1 = .error e → (AckMsg s now qid mid).2 = s) := by
  refine ⟨?_, ?_, ?_, ?_, ?_⟩
  · intro newId createdAt nm de runId actorId e h
    by_cases hn : isNameExists s nm = true
    · simp [CreateQueue, hn]
    · rw [Bool.not_eq_true] at hn
      simp [CreateQueue, hn] at h
  · intro qid nm de e h
    rcases hq : lookupQ s qid with _ | d
    · simp [UpdateQueue, hq]
    · rcases hm : d.meta with _ | q
      · simp [UpdateQueue, hq, hm]
      · simp [UpdateQueue, hq, hm] at h
  · intro qid
    rfl
  · intro newId qid nm pl dl rt tm e h
    by_cases hd : dl < now + 300
    · simp [CreateMsg, hd]
    · rcases hq : lookupQ s qid with _ | d
      · simp [CreateMsg, hd, hq]
      · simp [CreateMsg, hd, hq] at h
  · intro qid mid e h
    rcases hq : lookupQ s qid with _ | d
    · simp [AckMsg, hq]
    · rcases hf : findFile d.msgs mid with _ | om
      · simp [AckMsg, hq, hf]
      · rcases om with _ | m
        · simp [AckMsg, hq, hf]
        · by_cases h0 : m.reenterTime = 0
          · simp [AckMsg, hq, hf, h0]
          · by_cases hlt : m.reenterTime < now
            · simp [AckMsg, hq, hf, h0, hlt]
            · simp [AckMsg, hq, hf, h0, hlt] at h

/-- C8 witness: the error-frame conjunction instantiated at a concrete state,
with the enqueue conjunct applied to a rejected deadline. -/
theorem C8_witness :
    (CreateMsg exStateFresh 1000 "z" "q" "nm" "pl" 100 1 60).1
        = .error .deadlineTooSoon
    ∧ (CreateMsg exStateFresh 1000 "z" "q" "nm" "pl" 100 1 60).2 = exStateFresh := by
  refine ⟨by decide, ?_⟩
  exact (C8_error_frame exStateFresh 1000).2.2.2.1 "z" "q" "nm" "pl" 100 1 60
    .deadlineTooSoon (by decide)

/-- C7: updating a missing queue silently succeeds without touching state;
updating an existing queue rewrites the descriptor with the new name and
description while `id`, `runId`, `actorId`, `createdAt` and the message files
are unchanged. -/
theorem C7_UpdateQueue (s : State) (qid n de : String) :
    (lookupQ s qid = none → UpdateQueue s qid n de = (.ok (), s))
    ∧ (∀ d q, lookupQ s qid = some d → d.meta = some q →
        ∃ s2 d2 q2, UpdateQueue s qid n de = (.ok (), s2)
          ∧ lookupQ s2 qid = some d2 ∧ d2.meta = some q2 ∧ d2.msgs = d.msgs
          ∧ q2.name = n ∧ q2.description = de
          ∧ q2.id = q.id ∧ q2.runId = q.runId ∧ q2.actorId = q.actorId
          ∧ q2.createdAt = q.createdAt) := by
  constructor
  · intro h
    simp [UpdateQueue, h]
  · intro d q hd hm
    refine ⟨setQ s qid { d with meta := some { q with name := n, description := de } },
      { d with meta := some { q with name := n, description := de } },
      { q with name := n, description := de }, ?_,
      lookupQ_setQ_self s qid d _ hd, rfl, rfl, rfl, rfl, rfl, rfl, rfl, rfl⟩
    simp [UpdateQueue, hd, hm]

/-- C7 witness: the update conjunction applied at a concrete state, checking
the existing-queue branch on a stored descriptor. -/
theorem C7_witness :
    ∃ s2 d2 q2, UpdateQueue exStateWithMeta "q" "n2" "d2" = (.ok (), s2)
      ∧ lookupQ s2 "q" = some d2 ∧ d2.meta = some q2 ∧ d2.msgs = []
      ∧ q2.name = "n2" ∧ q2.description = "d2"
      ∧ q2.id = exQueueMeta.id ∧ q2.runId = exQueueMeta.runId
      ∧ q2.actorId = exQueueMeta.actorId ∧ q2.createdAt = exQueueMeta.createdAt :=
  (C7_UpdateQueue exStateWithMeta "q" "n2" "d2").2
    { meta := some exQueueMeta, msgs := [] } exQueueMeta (by decide) (by decide)

/-- C5: enqueue rejects a deadline below now + 300 s with the lead-time error
and a missing queue directory with not-found; with `deadline = now + 301` and
an existing queue it persists a fresh record with `updateTime = now`,
`retried = 0` and `reenterTime` unset, keyed by the fresh message id. -/
theorem C5_CreateMsg (s : State) (now : Int) (newId qid nm pl : String)
    (dl rt tm : Int) :
    (dl < now + 300 →
      CreateMsg s now newId qid nm pl dl rt tm = (.error .deadlineTooSoon, s))
    ∧ (lookupQ s qid = none → ¬ dl < now + 300 →
        CreateMsg s now newId qid nm pl dl rt tm = (.error .resourceNotFound, s))
    ∧ (∀ d, lookupQ s qid = some d → (∀ p ∈ d.msgs, p.1 ≠ newId) →
        dl = now + 301 →
        ∃ s2 d2 mrec,
          CreateMsg s now newId qid nm pl dl rt tm = (.ok newId, s2)
          ∧ lookupQ s2 qid = some d2
          ∧ findFile d2.msgs newId = some (some mrec)
          ∧ mrec.updateTime = now ∧ mrec.retried = 0 ∧ mrec.reenterTime = 0) := by
  refine ⟨?_, ?_, ?_⟩
  · intro h
    simp [CreateMsg, h]
  · intro hq h
    simp [CreateMsg, h, hq]
  · intro d hq hfresh hdl
    have hnd : ¬ dl < now + 300 := by omega
    refine ⟨setQ s qid { d with msgs := d.msgs ++ [(newId, some (newMsgRec now newId qid nm pl dl rt tm))] },
      { d with msgs := d.msgs ++ [(newId, some (newMsgRec now newId qid nm pl dl rt tm))] },
      newMsgRec now newId qid nm pl dl rt tm, ?_,
      lookupQ_setQ_self s qid d _ hq, ?_, rfl, rfl, rfl⟩
    · simp [CreateMsg, newMsgRec, hnd, hq]
    · rw [findFile_append]
      have hnone : findFile d.msgs newId = none := by
        rw [findFile_eq_none_iff]
        intro hc
        obtain ⟨p, hp, hp1⟩ := List.mem_map.mp hc
        exact hfresh p hp hp1
      rw [hnone]
      simp [findFile]

/-- C5 witness: the enqueue conjunction applied at a concrete state, checking
the success branch at `deadline = now + 301`. -/
theorem C5_witness :
    ∃ s2 d2 mrec,
      CreateMsg exStateWithMeta 1000 "m1" "q" "nm" "pl" 1301 1 60 = (.ok "m1", s2)
      ∧ lookupQ s2 "q" = some d2
      ∧ findFile d2.msgs "m1" = some (some mrec)
      ∧ mrec.updateTime = 1000 ∧ mrec.retried = 0 ∧ mrec.reenterTime = 0 :=
  (C5_CreateMsg exStateWithMeta 1000 "m1" "q" "nm" "pl" 1301 1 60).2.2
    { meta := some exQueueMeta, msgs := [] } (by decide)
    (by intro p hp; cases hp) (by decide)

/-- C1 counterexample: polling one eligible record at instant 1000 persists
the lease (`reenterTime = 1060`, `retried = 1`) but leaves `updateTime` at
its old value 500 — the record written back does not get `updateTime = now`,
refuting that part of the claim. -/
theorem C1_counterexample :
    (GetMsg exStateFresh 1000 "q" 5).1
        = .ok [MsgLocal.toMsg { exMsgFresh with reenterTime := 1060, retried := 1 }]
    ∧ lookupQ (GetMsg exStateFresh 1000 "q" 5).2 "q"
        = some { meta := none,
                 msgs := [("a", some { exMsgFresh with reenterTime := 1060, retried := 1 })] }
    ∧ ({ exMsgFresh with reenterTime := 1060, retried := 1 } : MsgLocal).updateTime ≠ 1000 := by
  decide

/-- C1 (amended): every message a successful poll returns corresponds to a
pre-existing record whose lease grant is persisted in the post state under
the message's id: `reenterTime = now + timeout` seconds, `retried`
incremented by one, and `updateTime` carried over unchanged (the source does
not rewrite it during the lease grant, contrary to the claim's wording). -/
theorem C1_lease_grant (s : State) (now : Int) (qid : String) (limit : Nat)
    (d : QueueDir) (resp : List Msg) (s2 : State)
    (hq : lookupQ s qid = some d)
    (hr : readableB d.msgs = true)
    (hids : idsMatchB d.msgs = true)
    (hnd : keysNodup d.msgs)
    (hres : GetMsg s now qid limit = (.ok resp, s2)) :
    ∀ r ∈ resp, ∃ m0 d2,
      (m0.id, some m0) ∈ d.msgs
      ∧ r = (leaseMsg now m0).toMsg
      ∧ lookupQ s2 qid = some d2
      ∧ findFile d2.msgs m0.id = some (some (leaseMsg now m0))
      ∧ (leaseMsg now m0).reenterTime = now + m0.timeout
      ∧ (leaseMsg now m0).retried = m0.retried + 1
      ∧ (leaseMsg now m0).updateTime = m0.updateTime := by
  rw [GetMsg_eq_of_readable s now qid limit d hq hr] at hres
  have h1 : (pollSel now limit d.msgs).map MsgLocal.toMsg = resp :=
    Except.ok.inj (congrArg Prod.fst hres)
  have h2 : setQ s qid { d with msgs := (pollSel now limit d.msgs).foldl (fun acc m => writeMsgFile acc m.id m) (survOf now d.msgs) } = s2 :=
    congrArg Prod.snd hres
  subst h1
  subst h2
  intro r hr2
  obtain ⟨m1, hm1, heq⟩ := List.mem_map.mp hr2
  obtain ⟨m0, hm0e, hm1e⟩ := mem_pollSel now limit d.msgs m1 hm1
  obtain ⟨i, hi, hf0, hifl0⟩ := (mem_eligOf now d.msgs m0).mp hm0e
  have hid : m0.id = i := idsMatch_mem _ hids i m0 hi
  have hmem : leaseMsg now m0 ∈ pollSel now limit d.msgs := by
    rw [← hm1e]
    exact hm1
  have hnd2 := pollSel_ids_nodup now limit d.msgs hids hnd
  have hpersist := findFile_foldl_write_self (pollSel now limit d.msgs) hnd2
    (leaseMsg now m0) hmem (survOf now d.msgs)
  refine ⟨m0, _, ?_, ?_, lookupQ_setQ_self s qid d _ hq, hpersist, rfl, rfl, rfl⟩
  · rw [hid]
    exact hi
  · rw [← heq, hm1e]

/-- C1 witness: the amended lease-grant property instantiated at the
one-message state polled at instant 1000 with `timeout = 60`. -/
theorem C1_witness :
    ∃ m0 d2,
      (m0.id, some m0) ∈ [("a", some exMsgFresh)]
      ∧ MsgLocal.toMsg { exMsgFresh with reenterTime := 1060, retried := 1 }
          = (leaseMsg 1000 m0).toMsg
      ∧ lookupQ [("q", ({ meta := none, msgs := [("a", some { exMsgFresh with reenterTime := 1060, retried := 1 })] } : QueueDir))] "q" = some d2
      ∧ findFile d2.msgs m0.id = some (some (leaseMsg 1000 m0))
      ∧ (leaseMsg 1000 m0).reenterTime = 1000 + m0.timeout
      ∧ (leaseMsg 1000 m0).retried = m0.retried + 1
      ∧ (leaseMsg 1000 m0).updateTime = m0.updateTime :=
  C1_lease_grant exStateFresh 1000 "q" 5 ⟨none, [("a", some exMsgFresh)]⟩
    [MsgLocal.toMsg { exMsgFresh with reenterTime := 1060, retried := 1 }]
    [("q", { meta := none, msgs := [("a", some { exMsgFresh with reenterTime := 1060, retried := 1 })] })]
    (by decide) (by decide) (by decide) (by decide) (by decide)
    (MsgLocal.toMsg { exMsgFresh with reenterTime := 1060, retried := 1 })
    (List.mem_singleton.mpr rfl)

/-- C2: during a successful poll, a readable record is deleted from disk and
excluded from the results exactly when `successAt > 0`, or `failedAt > 0`,
or `deadline < now`, or its lease has expired (`reenterTime < now`) with the
retry budget exhausted (`retried ≥ retry`); hence a record with
`retried = retry = R` is purged, not leased, by the first poll after lease
expiry. -/
theorem C2_purge_iff (s : State) (now : Int) (qid : String) (limit : Nat)
    (d : QueueDir) (i : String) (m : MsgLocal) (resp : List Msg) (s2 : State)
    (hq : lookupQ s qid = some d)
    (hr : readableB d.msgs = true)
    (hids : idsMatchB d.msgs = true)
    (hnd : keysNodup d.msgs)
    (hm : (i, some m) ∈ d.msgs)
    (hres : GetMsg s now qid limit = (.ok resp, s2)) :
    ∃ d2, lookupQ s2 qid = some d2
      ∧ ((m.successAt > 0 ∨ m.failedAt > 0 ∨ m.deadline < now ∨
            (m.reenterTime < now ∧ m.retry ≤ m.retried)) ↔
          (findFile d2.msgs i = none ∧ ∀ r ∈ resp, r.id ≠ i)) := by
  rw [GetMsg_eq_of_readable s now qid limit d hq hr] at hres
  have h1 : (pollSel now limit d.msgs).map MsgLocal.toMsg = resp :=
    Except.ok.inj (congrArg Prod.fst hres)
  have h2 : setQ s qid { d with msgs := (pollSel now limit d.msgs).foldl (fun acc m => writeMsgFile acc m.id m) (survOf now d.msgs) } = s2 :=
    congrArg Prod.snd hres
  subst h1
  subst h2
  refine ⟨_, lookupQ_setQ_self s qid d _ hq, ?_⟩
  rw [← isFinished_iff]
  constructor
  · intro hf
    constructor
    · have hsv := findFile_survOf now d.msgs hnd i m hm
      rw [if_pos hf] at hsv
      have hne := pollSel_id_ne now limit d.msgs hids hnd i m hm (Or.inl hf)
      rw [findFile_foldl_write_ne (pollSel now limit d.msgs) i hne (survOf now d.msgs)]
      exact hsv
    · intro r hr2 he
      obtain ⟨m1, hm1, heq⟩ := List.mem_map.mp hr2
      apply pollSel_id_ne now limit d.msgs hids hnd i m hm (Or.inl hf) m1 hm1
      rw [← he, ← heq]
      rfl
  · rintro ⟨hfile, -⟩
    by_contra hf
    rw [Bool.not_eq_true] at hf
    have hsv := findFile_survOf now d.msgs hnd i m hm
    rw [if_neg (by rw [hf]; exact Bool.false_ne_true)] at hsv
    have hsome : (findFile (survOf now d.msgs) i).isSome = true := by
      rw [hsv]
      rfl
    have hsome2 := findFile_foldl_write_isSome (pollSel now limit d.msgs)
      (survOf now d.msgs) i hsome
    rw [hfile] at hsome2
    cases hsome2

/-- C2 witness: the purge characterization instantiated at a record whose
lease expired at 900 with `retried = retry = 1`, polled at instant 1000. -/
theorem C2_witness :
    ∃ d2, lookupQ [("q", ({ meta := none, msgs := [] } : QueueDir))] "q" = some d2
      ∧ ((exMsgExhausted.successAt > 0 ∨ exMsgExhausted.failedAt > 0
            ∨ exMsgExhausted.deadline < 1000
            ∨ (exMsgExhausted.reenterTime < 1000
                ∧ exMsgExhausted.retry ≤ exMsgExhausted.retried)) ↔
          (findFile d2.msgs "a" = none ∧ ∀ r ∈ ([] : List Msg), r.id ≠ "a")) :=
  C2_purge_iff exStateExhausted 1000 "q" 5 ⟨none, [("a", some exMsgExhausted)]⟩
    "a" exMsgExhausted [] [("q", { meta := none, msgs := [] })]
    (by decide) (by decide) (by decide) (by decide) (by decide) (by decide)

/-- C4 counterexample: a record leased until 1060 (`T = 1000`, `timeout = 60`)
with retries remaining but whose deadline 900 has passed is deleted — not
skipped with its file left on disk — by a poll at 1010, strictly before
lease expiry; this refutes the claim as stated. -/
theorem C4_counterexample :
    (GetMsg exStateLeasedPastDeadline 1010 "q" 5).1 = .ok []
    ∧ lookupQ (GetMsg exStateLeasedPastDeadline 1010 "q" 5).2 "q"
        = some { meta := none, msgs := [] }
    ∧ 1010 < exMsgLeasedPastDeadline.reenterTime
    ∧ exMsgLeasedPastDeadline.retried < exMsgLeasedPastDeadline.retry := by
  decide

/-- C4 (amended): for a record leased at `T` with `timeout = 60` (so
`reenterTime = T + 60`), carrying no terminal marker, whose deadline has not
passed at the poll instant and with retries remaining, every poll strictly
before `T + 60` leaves its file on disk and excludes it from the results,
and at or after `T + 60` the poll walk classifies it as eligible again. -/
theorem C4_lease_window (s : State) (t T : Int) (qid : String) (limit : Nat)
    (d : QueueDir) (i : String) (m : MsgLocal)
    (hq : lookupQ s qid = some d)
    (hr : readableB d.msgs = true)
    (hids : idsMatchB d.msgs = true)
    (hnd : keysNodup d.msgs)
    (hm : (i, some m) ∈ d.msgs)
    (hlease : m.reenterTime = T + 60)
    (hT : 0 ≤ T)
    (hsucc : m.successAt = 0)
    (hfail : m.failedAt = 0)
    (hdl : t ≤ m.deadline)
    (hretry : m.retried < m.retry) :
    (t < T + 60 →
      ∃ resp s2 d2, GetMsg s t qid limit = (.ok resp, s2)
        ∧ lookupQ s2 qid = some d2
        ∧ findFile d2.msgs i = some (some m)
        ∧ ∀ r ∈ resp, r.id ≠ i)
    ∧ (T + 60 ≤ t →
        ∀ E F, walkMsgs t d.msgs = (.ok E, F) → m ∈ E) := by
  have hfin : isFinished t m = false := by
    rw [← Bool.not_eq_true]
    intro hc
    rcases (isFinished_iff t m).mp hc with h | h | h | ⟨h1, h2⟩ <;> omega
  constructor
  · intro ht
    have hifl : isInFlight t m = true := by
      have e1 : decide (m.reenterTime ≠ 0) = true := by
        rw [decide_eq_true_eq]
        omega
      have e2 : decide (t < m.reenterTime) = true := by
        rw [decide_eq_true_eq]
        omega
      simp only [isInFlight, e1, e2]
      rfl
    rw [GetMsg_eq_of_readable s t qid limit d hq hr]
    refine ⟨_, _, _, rfl, lookupQ_setQ_self s qid d _ hq, ?_, ?_⟩
    · have hsv := findFile_survOf t d.msgs hnd i m hm
      rw [if_neg (by rw [hfin]; exact Bool.false_ne_true)] at hsv
      have hne := pollSel_id_ne t limit d.msgs hids hnd i m hm (Or.inr hifl)
      rw [findFile_foldl_write_ne (pollSel t limit d.msgs) i hne (survOf t d.msgs)]
      exact hsv
    · intro r hr2 he
      obtain ⟨m1, hm1, heq⟩ := List.mem_map.mp hr2
      apply pollSel_id_ne t limit d.msgs hids hnd i m hm (Or.inr hifl) m1 hm1
      rw [← he, ← heq]
      rfl
  · intro ht E F hw
    rw [walkMsgs_eq_of_readable t d.msgs hr] at hw
    have hE : eligOf t d.msgs = E := Except.ok.inj (congrArg Prod.fst hw)
    rw [← hE, mem_eligOf]
    refine ⟨i, hm, hfin, ?_⟩
    have e2 : decide (t < m.reenterTime) = false := by
      rw [decide_eq_false_iff_not]
      omega
    simp only [isInFlight, e2, Bool.and_false]

/-- C4 witness: the lease-window property instantiated at the record leased
until 1060 with retries remaining, polled at instant 1010. -/
theorem C4_witness :
    ∃ resp s2 d2, GetMsg exStateLeased 1010 "q" 5 = (.ok resp, s2)
      ∧ lookupQ s2 "q" = some d2
      ∧ findFile d2.msgs "a" = some (some exMsgLeased)
      ∧ ∀ r ∈ resp, r.id ≠ "a" :=
  (C4_lease_window exStateLeased 1010 1000 "q" 5 ⟨none, [("a", some exMsgLeased)]⟩
    "a" exMsgLeased (by decide) (by decide) (by decide) (by decide) (by decide)
    (by decide) (by decide) (by decide) (by decide) (by decide) (by decide)).1
    (by decide)

/-- C3: acknowledging fails with the not-found sentinel when the message file
is missing (queue directory absent included) or the record was never leased
(`reenterTime` zero); it fails with the lease-expired error when
`reenterTime` is already in the past; otherwise it succeeds and deletes the
file, after which a second acknowledge returns not-found and no successful
poll of that queue returns the message id. -/
theorem C3_AckMsg (s : State) (now : Int) (qid mid : String) (d : QueueDir)
    (hq : lookupQ s qid = some d)
    (hids : idsMatchB d.msgs = true) :
    (∀ s0 : State, lookupQ s0 qid = none →
        AckMsg s0 now qid mid = (.error .resourceNotFound, s0))
    ∧ (findFile d.msgs mid = none →
        AckMsg s now qid mid = (.error .resourceNotFound, s))
    ∧ (∀ m, findFile d.msgs mid = some (some m) → m.reenterTime = 0 →
        AckMsg s now qid mid = (.error .resourceNotFound, s))
    ∧ (∀ m, findFile d.msgs mid = some (some m) → m.reenterTime ≠ 0 →
        m.reenterTime < now →
        AckMsg s now qid mid = (.error .ackTimeout, s))
    ∧ (∀ m, findFile d.msgs mid = some (some m) → m.reenterTime ≠ 0 →
        ¬ m.reenterTime < now →
        AckMsg s now qid mid
          = (.ok (), setQ s qid { d with msgs := removeMsgFile d.msgs mid })
        ∧ (∀ now2,
            AckMsg (setQ s qid { d with msgs := removeMsgFile d.msgs mid }) now2 qid mid
              = (.error .resourceNotFound,
                 setQ s qid { d with msgs := removeMsgFile d.msgs mid }))
        ∧ (∀ now3 limit resp s3,
            GetMsg (setQ s qid { d with msgs := removeMsgFile d.msgs mid }) now3 qid limit
              = (.ok resp, s3) →
            ∀ r ∈ resp, r.id ≠ mid)) := by
  refine ⟨?_, ?_, ?_, ?_, ?_⟩
  · intro s0 h
    simp [AckMsg, h]
  · intro h
    simp [AckMsg, hq, h]
  · intro m hf h0
    simp [AckMsg, hq, hf, h0]
  · intro m hf h0 hlt
    simp [AckMsg, hq, hf, h0, hlt]
  · intro m hf h0 hge
    have hpost : lookupQ (setQ s qid { d with msgs := removeMsgFile d.msgs mid }) qid
        = some { d with msgs := removeMsgFile d.msgs mid } :=
      lookupQ_setQ_self s qid d _ hq
    refine ⟨?_, ?_, ?_⟩
    · simp [AckMsg, hq, hf, h0, hge]
    · intro now2
      have hnone : findFile (removeMsgFile d.msgs mid) mid = none := by
        rw [findFile_eq_none_iff]
        intro hc
        obtain ⟨p, hp, hp1⟩ := List.mem_map.mp hc
        rw [removeMsgFile] at hp
        have h2 := (List.mem_filter.mp hp).2
        simp only [decide_eq_true_eq] at h2
        exact h2 hp1
      simp [AckMsg, hpost, hnone]
    · intro now3 limit resp s3 hgm r hr2
      obtain ⟨i, m0, hmem, hid⟩ :=
        GetMsg_ok_resp _ now3 qid limit resp s3 _ hpost hgm r hr2
      rw [removeMsgFile] at hmem
      have hmf := List.mem_filter.mp hmem
      have hid0 : m0.id = i := idsMatch_mem _ hids i m0 hmf.1
      have hine := hmf.2
      simp only [decide_eq_true_eq] at hine
      rw [hid, hid0]
      exact hine

/-- C3 witness: acknowledging the leased record at 1030 (before its lease
expires at 1060) deletes the file, and a second acknowledge on the resulting
state returns the not-found sentinel. -/
theorem C3_witness :
    AckMsg exStateLeased 1030 "q" "a"
        = (.ok (), [("q", { meta := none, msgs := [] })])
    ∧ AckMsg [("q", ({ meta := none, msgs := [] } : QueueDir))] 1030 "q" "a"
        = (.error .resourceNotFound, [("q", { meta := none, msgs := [] })]) := by
  have h := (C3_AckMsg exStateLeased 1030 "q" "a"
    ⟨none, [("a", some exMsgLeased)]⟩ (by decide) (by decide)).2.2.2.2
    exMsgLeased (by decide) (by decide) (by decide)
  exact ⟨h.1.trans (by decide), (h.2.1 1030).trans (by decide)⟩

/-- C10: a message enqueued with `retry = 0` is purged by the first poll
after enqueue and never returned to any caller: its zero `reenterTime`
already compares as expired and `retried = 0 ≥ retry = 0`, so the
never-delivered record is classified terminal. -/
theorem C10_zero_retry (s : State) (t0 t1 : Int) (newId qid nm pl : String)
    (dl tm : Int) (limit : Nat) (d : QueueDir) (s1 : State)
    (hq : lookupQ s qid = some d)
    (hr : readableB d.msgs = true)
    (hids : idsMatchB d.msgs = true)
    (hnd : keysNodup d.msgs)
    (hfresh : ∀ p ∈ d.msgs, p.1 ≠ newId)
    (hcreate : CreateMsg s t0 newId qid nm pl dl 0 tm = (.ok newId, s1))
    (ht1 : 0 < t1) :
    ∃ resp s2 d2,
      GetMsg s1 t1 qid limit = (.ok resp, s2)
      ∧ (∀ r ∈ resp, r.id ≠ newId)
      ∧ lookupQ s2 qid = some d2
      ∧ findFile d2.msgs newId = none := by
  have hnd300 : ¬ dl < t0 + 300 := by
    intro hc
    simp [CreateMsg, hc] at hcreate
  simp only [CreateMsg, if_neg hnd300, hq] at hcreate
  have hs1 : setQ s qid { d with msgs := d.msgs ++ [(newId, some (newMsgRec t0 newId qid nm pl dl 0 tm))] } = s1 :=
    congrArg Prod.snd hcreate
  subst hs1
  have hd1 : lookupQ (setQ s qid { d with msgs := d.msgs ++ [(newId, some (newMsgRec t0 newId qid nm pl dl 0 tm))] }) qid
      = some { d with msgs := d.msgs ++ [(newId, some (newMsgRec t0 newId qid nm pl dl 0 tm))] } :=
    lookupQ_setQ_self s qid d _ hq
  have hr1 : readableB (d.msgs ++ [(newId, some (newMsgRec t0 newId qid nm pl dl 0 tm))]) = true := by
    rw [readableB, List.all_append, Bool.and_eq_true]
    exact ⟨hr, rfl⟩
  have hids1 : idsMatchB (d.msgs ++ [(newId, some (newMsgRec t0 newId qid nm pl dl 0 tm))]) = true := by
    rw [idsMatchB, List.all_append, Bool.and_eq_true]
    refine ⟨hids, ?_⟩
    simp [newMsgRec]
  have hnd1 : keysNodup (d.msgs ++ [(newId, some (newMsgRec t0 newId qid nm pl dl 0 tm))]) := by
    show (List.map Prod.fst (d.msgs ++ [(newId, some (newMsgRec t0 newId qid nm pl dl 0 tm))])).Nodup
    rw [List.map_append, List.nodup_append]
    refine ⟨hnd, List.nodup_singleton _, ?_⟩
    intro a ha hb
    simp only [List.map_cons, List.map_nil, List.mem_singleton] at hb
    subst hb
    obtain ⟨p, hp, hp1⟩ := List.mem_map.mp ha
    exact hfresh p hp hp1
  have hmem1 : (newId, some (newMsgRec t0 newId qid nm pl dl 0 tm))
      ∈ d.msgs ++ [(newId, some (newMsgRec t0 newId qid nm pl dl 0 tm))] :=
    List.mem_append_right _ (List.mem_singleton.mpr rfl)
  have hfin : isFinished t1 (newMsgRec t0 newId qid nm pl dl 0 tm) = true := by
    rw [isFinished_iff]
    right
    right
    right
    exact ⟨ht1, le_refl 0⟩
  rw [GetMsg_eq_of_readable _ t1 qid limit _ hd1 hr1]
  refine ⟨_, _, _, rfl, ?_, lookupQ_setQ_self _ qid _ _ hd1, ?_⟩
  · intro r hr2 he
    obtain ⟨m1, hm1, heq⟩ := List.mem_map.mp hr2
    apply pollSel_id_ne t1 limit _ hids1 hnd1 newId _ hmem1 (Or.inl hfin) m1 hm1
    rw [← he, ← heq]
    rfl
  · have hsv := findFile_survOf t1 _ hnd1 newId _ hmem1
    rw [if_pos hfin] at hsv
    have hne := pollSel_id_ne t1 limit _ hids1 hnd1 newId _ hmem1 (Or.inl hfin)
    rw [findFile_foldl_write_ne _ newId hne _]
    exact hsv

/-- C10 witness: the zero-retry purge property instantiated at an enqueue
into the empty queue at instant 1000 followed by a poll at 1001. -/
theorem C10_witness :
    ∃ resp s2 d2,
      GetMsg [("q", ({ meta := some exQueueMeta, msgs := [("m1", some (newMsgRec 1000 "m1" "q" "nm" "pl" 1300 0 60))] } : QueueDir))] 1001 "q" 5
        = (.ok resp, s2)
      ∧ (∀ r ∈ resp, r.id ≠ "m1")
      ∧ lookupQ s2 "q" = some d2
      ∧ findFile d2.msgs "m1" = none :=
  C10_zero_retry exStateWithMeta 1000 1001 "m1" "q" "nm" "pl" 1300 60 5
    ⟨some exQueueMeta, []⟩
    [("q", { meta := some exQueueMeta, msgs := [("m1", some (newMsgRec 1000 "m1" "q" "nm" "pl" 1300 0 60))] })]
    (by decide) (by decide) (by decide) (by decide)
    (by intro p hp; cases hp) (by decide) (by decide)

theorem goSlice_clamped {α : Type} (l : List α) (total start0 ps : Int)
    (htot : total = (l.length : Int)) (h0 : 0 ≤ start0) (hps : 1 ≤ ps) :
    goSlice l (if start0 > total then total else start0)
      (if (if start0 > total then total else start0) + ps > total then total
       else (if start0 > total then total else start0) + ps)
      = some ((l.drop start0.toNat).take ps.toNat) := by
  subst htot
  by_cases hA : start0 > (l.length : Int)
  · rw [if_pos hA]
    have hB : (l.length : Int) + ps > (l.length : Int) := by omega
    rw [if_pos hB]
    rw [goSlice, if_pos ⟨Int.natCast_nonneg _, le_refl _, le_refl _⟩]
    congr 1
    have e1 : ((l.length : Int)).toNat = l.length := by omega
    rw [e1, List.take_length, List.drop_length,
      List.drop_eq_nil_of_le (show l.length ≤ start0.toNat by omega), List.take_nil]
  · rw [if_neg hA]
    by_cases hB : start0 + ps > (l.length : Int)
    · rw [if_pos hB]
      rw [goSlice, if_pos ⟨h0, by omega, le_refl _⟩]
      congr 1
      have e1 : ((l.length : Int)).toNat = l.length := by omega
      rw [e1, List.take_length]
      rw [List.take_of_length_le (by rw [List.length_drop]; omega)]
    · rw [if_neg hB]
      rw [goSlice, if_pos ⟨h0, by omega, by omega⟩]
      congr 1
      rw [List.drop_take]
      congr 1
      omega

/-- C6: listing sorts the readable descriptors by creation timestamp
(ascending, descending when `desc` is set), slices to the 1-indexed page,
returns the pre-pagination total and `ceil(total / pageSize)` as the page
count (`totalPage` is modelled from the spec, its source being outside this
file), and yields an empty page — not an error — for pages past the end. -/
theorem C6_GetQueues (s : State) (page pageSize : Int) (desc : Bool)
    (hp : 1 ≤ page) (hps : 1 ≤ pageSize) :
    ∃ (resp : ListQueuesResponse) (L : List Queue),
      GetQueues s page pageSize desc = some resp
      ∧ L.Perm (s.filterMap fun p => p.2.meta)
      ∧ L.Pairwise (fun a b => queueLe desc a b = true)
      ∧ resp.total = ((s.filterMap fun p => p.2.meta).length : Int)
      ∧ resp.totalPage = totalPage resp.total pageSize
      ∧ resp.page = page ∧ resp.pageSize = pageSize
      ∧ resp.items = (L.drop ((page - 1) * pageSize).toNat).take pageSize.toNat
      ∧ (((s.filterMap fun p => p.2.meta).length : Int) ≤ (page - 1) * pageSize →
          resp.items = []) := by
  have h0 : 0 ≤ (page - 1) * pageSize := mul_nonneg (by omega) (by omega)
  have hlen : (sortLe (queueLe desc) (s.filterMap fun p => p.2.meta)).length
      = (s.filterMap fun p => p.2.meta).length := length_sortLe _ _
  have hslice := goSlice_clamped (sortLe (queueLe desc) (s.filterMap fun p => p.2.meta))
    ((s.filterMap fun p => p.2.meta).length : Int) ((page - 1) * pageSize) pageSize
    (by rw [hlen]) h0 hps
  simp only [GetQueues]
  rw [hslice]
  refine ⟨_, sortLe (queueLe desc) (s.filterMap fun p => p.2.meta), rfl,
    perm_sortLe _ _,
    pairwise_sortLe _ (queueLe_total desc) (queueLe_trans desc) _,
    rfl, rfl, rfl, rfl, rfl, ?_⟩
  intro hle
  show ((sortLe (queueLe desc) (s.filterMap fun p => p.2.meta)).drop
    ((page - 1) * pageSize).toNat).take pageSize.toNat = []
  rw [List.drop_eq_nil_of_le (by rw [hlen]; omega), List.take_nil]

/-- C6 witness: the listing property instantiated at a one-queue state with
`page = 1`, `pageSize = 1`, ascending order. -/
theorem C6_witness :
    ∃ (resp : ListQueuesResponse) (L : List Queue),
      GetQueues exStateWithMeta 1 1 false = some resp
      ∧ L.Perm (exStateWithMeta.filterMap fun p => p.2.meta)
      ∧ L.Pairwise (fun a b => queueLe false a b = true)
      ∧ resp.total = ((exStateWithMeta.filterMap fun p => p.2.meta).length : Int)
      ∧ resp.totalPage = totalPage resp.total 1
      ∧ resp.page = 1 ∧ resp.pageSize = 1
      ∧ resp.items = (L.drop (((1 : Int) - 1) * 1).toNat).take (1 : Int).toNat
      ∧ (((exStateWithMeta.filterMap fun p => p.2.meta).length : Int)
            ≤ ((1 : Int) - 1) * 1 → resp.items = []) :=
  C6_GetQueues exStateWithMeta 1 1 false (by decide) (by decide)

end StorageMemory
